import Mathlib

/-!
Shallow embedding of the terracotta workload-consolidation controller
(openstack-archive/terracotta) together with proofs about the claims of its
natural-language specification.

Conventions of the embedding:
- Python `int` values become `Int` (or `Nat` for values that are counts or
  nanosecond counters); Python `float` values become `ℚ` (the claims under
  study concern order comparisons and exact arithmetic identities that are
  unaffected by binary rounding at the chosen witness points).
- Python dictionaries become association lists `List (key × value)` or
  finitely-used functions `key → value`, depending on whether the source
  iterates over the dictionary or only looks keys up.
- Python code that can raise (indexing an empty list, a failing hypervisor
  lookup) is modelled with `Option`.
- The sources target Python 2: `/` on integers is floor division
  (`Int.fdiv`), `int(x)` on a float truncates toward zero (`pyInt` below).
-/

namespace Terracotta

/-- Python `int(_)` applied to a real value: truncation toward zero. -/
def pyInt (q : ℚ) : Int := if q < 0 then ⌈q⌉ else ⌊q⌋

/-- Python 2 floor division on integers. -/
def pyDiv (a b : Int) : Int := Int.fdiv a b

/-! ### locals/overload/otf.py -/

/-- The `state` dictionary `{'overload': ..., 'total': ...}` threaded through
the OTF detector. -/
structure OtfState where
  overload : Nat
  total : Nat
deriving Repr, DecidableEq

/-- `otf(otf, threshold, limit, migration_time, utilization, state)` from
`locals/overload/otf.py`.  `utilization[-1]` raises on an empty history, hence
the `Option` result.  The state updates (`total += 1`, conditional
`overload += 1`) happen before the decision is computed, exactly as in the
source. -/
def otf (otf_param threshold : ℚ) (limit : Nat) (migration_time : ℚ)
    (utilization : List ℚ) (state : OtfState) : Option (Bool × OtfState) :=
  match utilization.getLast? with
  | none => none
  | some last =>
    let total := state.total + 1
    let overload := threshold ≤ last
    let ov := if overload then state.overload + 1 else state.overload
    let decision :=
      if ¬ overload ∨ utilization.length < limit then false
      else decide (otf_param ≤ (migration_time + ov) / (migration_time + total))
    some (decision, ⟨ov, total⟩)

/-- The closure returned by `otf_factory(time_step, migration_time, params)`:
it normalizes the migration time by the time step and resets the state to
`{'overload': 0, 'total': 0}` when given `None` or `{}` (both modelled as
`Option.none`). -/
def otf_factory (time_step migration_time : ℚ) (otf_param threshold : ℚ)
    (limit : Nat) (utilization : List ℚ) (state : Option OtfState) :
    Option (Bool × OtfState) :=
  otf otf_param threshold limit (migration_time / time_step) utilization
    (state.getD ⟨0, 0⟩)

/-- Thread the OTF wrapper over a list of utilization histories, one
invocation per tick, starting from the given state; `none` when some
invocation fails (empty history). -/
def otf_thread (time_step migration_time otf_param threshold : ℚ)
    (limit : Nat) : List (List ℚ) → OtfState → Option OtfState
  | [], s => some s
  | u :: rest, s =>
    match otf_factory time_step migration_time otf_param threshold limit u
        (some s) with
    | none => none
    | some (_, s1) => otf_thread time_step migration_time otf_param threshold
        limit rest s1

/-- The decisions produced while threading the OTF wrapper over a list of
utilization histories. -/
def otf_decisions (time_step migration_time otf_param threshold : ℚ)
    (limit : Nat) : List (List ℚ) → OtfState → Option (List Bool)
  | [], _ => some []
  | u :: rest, s =>
    match otf_factory time_step migration_time otf_param threshold limit u
        (some s) with
    | none => none
    | some (d, s1) =>
      (otf_decisions time_step migration_time otf_param threshold limit rest
        s1).map (fun ds => d :: ds)

/-! ### locals/overload/mhod/core.py -/

/-- The loop of `utilization_to_state`: `prev` starts at `-1`, and at each
index the source executes `prev = state` (the integer loop index, not the
threshold — exactly as written in the source). -/
def uts_loop (u : ℚ) : Int → Nat → List ℚ → Int
  | prev, _, [] => prev + 1
  | prev, state, t :: rest =>
    if (prev : ℚ) ≤ u ∧ u < t then (state : Int)
    else uts_loop u (state : Int) (state + 1) rest

/-- `utilization_to_state(state_config, utilization)` from
`locals/overload/mhod/core.py`. -/
def utilization_to_state (state_config : List ℚ) (utilization : ℚ) : Int :=
  uts_loop utilization (-1) 0 state_config

/-- Modelled from the spec (for comparison with the source): the state `s`
such that `t_{s-1} ≤ u < t_s` with `t_{-1} = -∞` and `t_N = +∞`; for a
strictly ascending threshold list this is the number of thresholds that are
`≤ u`. -/
def utilization_to_state_spec (state_config : List ℚ) (utilization : ℚ) :
    Int :=
  (state_config.countP (fun t => decide (t ≤ utilization)) : Int)

/-! ### locals/collector.py, log_host_overload -/

/-- `log_host_overload` from `locals/collector.py`.  The database side effect
`db.insert_host_overload(hostname, overload)` is modelled by the first
component: `some b` when a `HostOverloadEvent` with payload `b` is inserted,
`none` when nothing is inserted.  The second component is the returned
`overload_int`, the new `previous_overload`.  The guard is written exactly
with the precedence of the source
(`prev != -1 and prev != overload_int or prev == -1`). -/
def log_host_overload (overload_threshold : ℚ) (previous_overload : Int)
    (host_total_mhz host_utilization_mhz : Int) : Option Bool × Int :=
  let overload :=
    decide (overload_threshold * (host_total_mhz : ℚ) <
      (host_utilization_mhz : ℚ))
  let overload_int : Int := if overload then 1 else 0
  let inserted :=
    if (previous_overload ≠ -1 ∧ previous_overload ≠ overload_int) ∨
        previous_overload = -1 then
      some overload
    else none
  (inserted, overload_int)

/-! ### locals/collector.py, per-VM CPU sampling -/

/-- `get_cpu_time` from `locals/collector.py`.  The hypervisor is modelled as
a partial map from VM UUIDs to CPU-time counters (nanoseconds); a
`libvirt.libvirtError` during `lookupByUUIDString`/`getCPUStats` is `none`,
and the `except` clause turns it into `0`. -/
def get_cpu_time (vir_connection : String → Option Nat) (uuid : String) :
    Nat :=
  (vir_connection uuid).getD 0

/-- `calculate_cpu_mhz` from `locals/collector.py`:
`int(cpu_mhz * float(Δcpu_time) / (Δwall_time * 1000000000))`, so a Python
`int(_)` truncation of the exact quotient. -/
def calculate_cpu_mhz (cpu_mhz : ℚ) (previous_time current_time : ℚ)
    (previous_cpu_time current_cpu_time : Nat) : Int :=
  pyInt (cpu_mhz * ((current_cpu_time : ℚ) - (previous_cpu_time : ℚ)) /
    ((current_time - previous_time) * 1000000000))

/-- `substract_lists(list1, list2)` from `locals/collector.py`: the elements
of `list1` that are not in `list2`.  The source materializes a Python set,
whose iteration order is arbitrary; the claims below only use membership, so
the model keeps the order of `list1`. -/
def substract_lists (list1 list2 : List String) : List String :=
  list1.filter (fun x => decide (x ∉ list2))

/-- `get_added_vms` from `locals/collector.py`. -/
def get_added_vms (previous_vms current_vms : List String) : List String :=
  substract_lists current_vms previous_vms

/-- `get_removed_vms` from `locals/collector.py`. -/
def get_removed_vms (previous_vms current_vms : List String) : List String :=
  substract_lists previous_vms current_vms

/-- `get_cpu_mhz` from `locals/collector.py`.  The dictionaries
`previous_cpu_time` and the produced `cpu_mhz` are association lists;
`previous_cpu_mhz` and `added_vm_data` are only looked up, so they are plain
functions.  The source first deletes the removed VMs from
`previous_cpu_time` (keeping exactly the keys that are in `current_vms`),
then for each remaining entry reads the current CPU time through the
hypervisor — reusing the previous MHz value when the counter appears to have
decreased, which includes the lookup-failure case where `get_cpu_time`
returns 0 — and finally registers the added VMs, giving each VM with
non-empty fetched data its last remote sample.  The result is the pair
`(previous_cpu_time, cpu_mhz)`. -/
def get_cpu_mhz (vir_connection : String → Option Nat)
    (physical_core_mhz : ℚ) (previous_cpu_time : List (String × Nat))
    (previous_time current_time : ℚ) (current_vms : List String)
    (previous_cpu_mhz : String → Int) (added_vm_data : String → List Int) :
    List (String × Nat) × List (String × Int) :=
  let kept := previous_cpu_time.filter (fun p => decide (p.1 ∈ current_vms))
  let cpu_mhz_kept := kept.map (fun p =>
    (p.1,
     if get_cpu_time vir_connection p.1 < p.2 then previous_cpu_mhz p.1
     else calculate_cpu_mhz physical_core_mhz previous_time current_time p.2
       (get_cpu_time vir_connection p.1)))
  let prev_kept := kept.map (fun p =>
    (p.1, get_cpu_time vir_connection p.1))
  let added := get_added_vms (previous_cpu_time.map Prod.fst) current_vms
  let cpu_mhz_added :=
    (added.filter (fun v => decide (added_vm_data v ≠ []))).map
      (fun v => (v, ((added_vm_data v).getLast?).getD 0))
  let prev_added := added.map (fun v => (v, get_cpu_time vir_connection v))
  (prev_kept ++ prev_added, cpu_mhz_kept ++ cpu_mhz_added)

/-! ### locals/manager.py, vm_mhz_to_percentage -/

/-- `max(len(x) for x in vm_mhz_history)`; Python raises on an empty
collection, and the claims below always supply a non-empty one, for which
the fold agrees with the Python maximum. -/
def maxVmHistoryLen (vm_mhz_history : List (List ℚ)) : Nat :=
  (vm_mhz_history.map List.length).foldr max 0

/-- `[0] * (max_len - len(x)) + x`: pad a history on the left with zeros up
to the common length. -/
def leftPad (n : Nat) (x : List ℚ) : List ℚ :=
  List.replicate (n - x.length) 0 ++ x

/-- `host_mhz_history[-max_len:] if len(host_mhz_history) > max_len`. -/
def truncateHost (n : Nat) (host : List ℚ) : List ℚ :=
  if n < host.length then host.drop (host.length - n) else host

/-- The element-wise sum over the zero-padded VM histories plus the
(truncated, zero-padded) host history at time index `i` — one component of
the `zip(*mhz_history)` tuple of the source. -/
def alignedColumnSum (vm_mhz_history : List (List ℚ))
    (host_mhz_history : List ℚ) (i : Nat) : ℚ :=
  (((vm_mhz_history ++
      [truncateHost (maxVmHistoryLen vm_mhz_history) host_mhz_history]).map
    (leftPad (maxVmHistoryLen vm_mhz_history))).map
      (fun l => l.getD i 0)).sum

/-- `LocalManager.vm_mhz_to_percentage` from `locals/manager.py`: truncate
the host history to the maximum VM-history length, left-pad every history
with zeros to that length, and return the per-index total divided by the
physical CPU capacity.  All padded lists have exactly the common length, so
the `zip(*_)` of the source is the per-index traversal below. -/
def vm_mhz_to_percentage (vm_mhz_history : List (List ℚ))
    (host_mhz_history : List ℚ) (physical_cpu_mhz : ℚ) : List ℚ :=
  (List.range (maxVmHistoryLen vm_mhz_history)).map
    (fun i => alignedColumnSum vm_mhz_history host_mhz_history i /
      physical_cpu_mhz)

/-! ### globals/manager.py, execute_overload VM pruning -/

/-- The Python loop
`for i, vm in enumerate(vms_to_migrate): if vm not in vms_ram: del
vms_to_migrate[i]`, with the exact semantics of deleting from the list being
iterated: after a deletion the iterator's internal index moves past the
element that slid into the deleted slot, so that element is kept without
being examined. -/
def del_missing_ram (known_ram : String → Bool) : List String → List String
  | [] => []
  | x :: xs =>
    if known_ram x then x :: del_missing_ram known_ram xs
    else
      match xs with
      | [] => []
      | y :: ys => y :: del_missing_ram known_ram ys

/-- Outcome of the VM-pruning phase of `GlobalManager.execute_overload`:
either the request is dropped because some VM has no CPU history, or no VM
is left to migrate, or the placement algorithm is invoked with
`vms_to_migrate`, the keys of `vms_cpu` and the keys of `vms_ram`. -/
inductive OverloadPrep where
  | dropped : OverloadPrep
  | noVms : OverloadPrep
  | place (vms_to_migrate vms_cpu_keys vms_ram_keys : List String) :
      OverloadPrep
deriving Repr, DecidableEq

/-- The VM-pruning phase of `GlobalManager.execute_overload`
(`globals/manager.py`, lines 556–583).  `has_cpu` tells whether a UUID is a
key of `vms_last_cpu` (has CPU history in the database) and `known_ram`
whether `vms_ram_limit` found the flavor RAM of the UUID.  The source sets
`vms_to_migrate = vm_uuids` and builds `vms_cpu` with one entry per UUID,
returning early (dropping the whole request) at the first UUID without CPU
history; `vms_ram = vms_ram_limit(nova, vms_to_migrate)` keeps the UUIDs
with known RAM; the deleting loop above prunes `vms_to_migrate`; after the
emptiness check, `vms_cpu` is restricted to the keys of `vms_ram`. -/
def execute_overload_prep (vm_uuids : List String)
    (has_cpu known_ram : String → Bool) : OverloadPrep :=
  if ¬ vm_uuids.all has_cpu then .dropped
  else
    let vms_ram_keys := vm_uuids.filter known_ram
    let vms_to_migrate := del_missing_ram known_ram vm_uuids
    if vms_to_migrate = [] then .noVms
    else
      let vms_cpu_keys := vm_uuids.filter known_ram
      .place vms_to_migrate vms_cpu_keys vms_ram_keys

/-! ### globals/vm_placement/bin_packing.py -/

/-- Lexicographic comparison of character lists by Unicode code point —
Python string `<`. -/
def charListLt : List Char → List Char → Bool
  | [], [] => false
  | [], _ :: _ => true
  | _ :: _, [] => false
  | c :: cs, d :: ds =>
    if c.val < d.val then true
    else if d.val < c.val then false
    else charListLt cs ds

/-- Python `a < b` on strings. -/
def pyStrLt (a b : String) : Bool := charListLt a.data b.data

/-- Python `a <= b` on strings. -/
def pyStrLe (a b : String) : Bool := ! pyStrLt b a

/-- Python tuple comparison `a <= b` on the `(value, value, name)` triples
used by the BFD heuristic: lexicographic, with strings compared by code
point. -/
def tripleLe (a b : Int × Int × String) : Bool :=
  decide (a.1 < b.1) || (a.1 == b.1 && (decide (a.2.1 < b.2.1) ||
    (a.2.1 == b.2.1 && pyStrLe a.2.2 b.2.2)))

/-- Stable insertion of an element into a sorted list. -/
def insertSorted (le : Int × Int × String → Int × Int × String → Bool)
    (x : Int × Int × String) :
    List (Int × Int × String) → List (Int × Int × String)
  | [] => [x]
  | y :: ys => if le x y then x :: y :: ys else y :: insertSorted le x ys

/-- Python `sorted(_)`: a stable sort with respect to the comparison, here
realized as insertion sort (any stable sort produces the same list). -/
def pySorted (le : Int × Int × String → Int × Int × String → Bool)
    (l : List (Int × Int × String)) : List (Int × Int × String) :=
  l.foldr (insertSorted le) []

/-- Pointwise update of a dictionary modelled as a function
(`d[k] = v`, and `d[k] -= x` as `updMap d k (d k - x)`). -/
def updMap (f : String → Int) (k : String) (v : Int) : String → Int :=
  fun x => if x = k then v else f x

/-- `get_available_resources(threshold, usage, total)` from
`globals/vm_placement/bin_packing.py`:
`int(threshold * total[host] - resource)` per host.  The source builds a
dictionary over the keys of `usage`; the model returns the value function,
and the key list travels separately where the code iterates over it. -/
def get_available_resources (threshold : ℚ) (usage total : String → Int) :
    String → Int :=
  fun host => pyInt (threshold * (total host : ℚ) - (usage host : ℚ))

/-- `cpu[-last_n_vm_cpu:]`: the last `n` values; Python yields the whole
list when `n = 0` (`cpu[-0:] = cpu`) or when `n ≥ len(cpu)`. -/
def lastN (n : Nat) (cpu : List Int) : List Int :=
  if n = 0 then cpu else cpu.drop (cpu.length - n)

/-- `sum(last_n_cpu) / len(last_n_cpu)` — Python 2 floor division on
integers. -/
def meanLastN (n : Nat) (cpu : List Int) : Int :=
  pyDiv (lastN n cpu).sum ((lastN n cpu).length : Int)

/-- The `vms_tmp` list of `best_fit_decreasing`: one triple
`(mean of the last n CPU values, vms_ram[vm], vm)` per VM with non-empty
CPU data (VMs with empty data are skipped with a warning). -/
def vmTriples (last_n_vm_cpu : Nat) (vm_names : List String)
    (vms_cpu : String → List Int) (vms_ram : String → Int) :
    List (Int × Int × String) :=
  vm_names.filterMap (fun vm =>
    if vms_cpu vm ≠ [] then
      some (meanLastN last_n_vm_cpu (vms_cpu vm), vms_ram vm, vm)
    else none)

/-- `sorted((v, ram[k], k) for k, v in cpu.items())`: the sorted triple list
over a host dictionary. -/
def hostTriples (names : List String) (cpuMap ramMap : String → Int) :
    List (Int × Int × String) :=
  pySorted tripleLe (names.map (fun h => (cpuMap h, ramMap h, h)))

/-- The inner `for _, _, host in hosts` scan of `best_fit_decreasing`: the
first host (in list order) whose current available CPU and RAM both cover
the demands. -/
def findHost (hosts_cpu hosts_ram : String → Int) (vm_cpu vm_ram : Int) :
    List (Int × Int × String) → Option String
  | [] => none
  | t :: rest =>
    if vm_cpu ≤ hosts_cpu t.2.2 ∧ vm_ram ≤ hosts_ram t.2.2 then some t.2.2
    else findHost hosts_cpu hosts_ram vm_cpu vm_ram rest

/-- The mutable state of the placement loop of `best_fit_decreasing`: the
sorted triple list `hosts` (whose recorded values go stale after
deductions, exactly as in the source), the remaining `inactive_hosts`, the
two availability dictionaries, and the accumulated `mapping`. -/
structure BfdState where
  hosts : List (Int × Int × String)
  inactive : List (Int × Int × String)
  hosts_cpu : String → Int
  hosts_ram : String → Int
  mapping : List (String × String)

/-- The `while not mapped` loop of `best_fit_decreasing` for one VM: scan
the active hosts; on a fit, record the mapping and deduct the demands; on a
miss, pop the smallest inactive host, register its availability, re-sort
the host list and retry; when no inactive host remains, leave the VM
unmapped. -/
def placeVm (vm_cpu vm_ram : Int) (vm_uuid : String) :
    List (Int × Int × String) → List (Int × Int × String) →
    (String → Int) → (String → Int) → List (String × String) → BfdState
  | inactive, hosts, hosts_cpu, hosts_ram, mapping =>
    match findHost hosts_cpu hosts_ram vm_cpu vm_ram hosts with
    | some host =>
      ⟨hosts, inactive, updMap hosts_cpu host (hosts_cpu host - vm_cpu),
        updMap hosts_ram host (hosts_ram host - vm_ram),
        mapping ++ [(vm_uuid, host)]⟩
    | none =>
      match inactive with
      | [] => ⟨hosts, [], hosts_cpu, hosts_ram, mapping⟩
      | a :: rest =>
        placeVm vm_cpu vm_ram vm_uuid rest
          (pySorted tripleLe (hosts ++ [a]))
          (updMap hosts_cpu a.2.2 a.1) (updMap hosts_ram a.2.2 a.2.1)
          mapping

/-- The outer `for vm_cpu, vm_ram, vm_uuid in vms` loop. -/
def placeAll : List (Int × Int × String) → BfdState → BfdState
  | [], s => s
  | (vm_cpu, vm_ram, vm_uuid) :: rest, s =>
    placeAll rest (placeVm vm_cpu vm_ram vm_uuid s.inactive s.hosts
      s.hosts_cpu s.hosts_ram s.mapping)

/-- `best_fit_decreasing` from `globals/vm_placement/bin_packing.py`.  The
dictionaries `hosts_cpu`, `hosts_ram`, `inactive_hosts_cpu`,
`inactive_hosts_ram`, `vms_cpu` and `vms_ram` are value functions with their
key lists (`host_names`, `inactive_names`, `vm_names`) passed alongside.
VMs are sorted by decreasing `(cpu, ram, uuid)`, hosts ascending; the final
mapping is returned only when every VM was placed, else `{}`. -/
def best_fit_decreasing (last_n_vm_cpu : Nat) (host_names : List String)
    (hosts_cpu hosts_ram : String → Int) (inactive_names : List String)
    (inactive_hosts_cpu inactive_hosts_ram : String → Int)
    (vm_names : List String) (vms_cpu : String → List Int)
    (vms_ram : String → Int) : List (String × String) :=
  let vms := pySorted (fun a b => tripleLe b a)
    (vmTriples last_n_vm_cpu vm_names vms_cpu vms_ram)
  let hosts := hostTriples host_names hosts_cpu hosts_ram
  let inactive :=
    hostTriples inactive_names inactive_hosts_cpu inactive_hosts_ram
  let final := placeAll vms ⟨hosts, inactive, hosts_cpu, hosts_ram, []⟩
  if vms.length = final.mapping.length then final.mapping else []

/-- The total demand charged to host `h` by a mapping, for a demand
function `dem` over VM names. -/
def placedSum (dem : String → Int) (mapping : List (String × String))
    (h : String) : Int :=
  ((mapping.filter (fun p => p.2 == h)).map (fun p => dem p.1)).sum

end Terracotta

namespace Terracotta

/-! ### Theorems: OTF (claims about locals/overload/otf.py) -/

/-- Explicit form of `otf` on a non-empty utilization history. -/
theorem otf_some (otf_param threshold : ℚ) (limit : Nat) (migration_time : ℚ)
    (utilization : List ℚ) (s : OtfState) (last : ℚ)
    (h : utilization.getLast? = some last) :
    otf otf_param threshold limit migration_time utilization s = some
      (if last < threshold ∨ utilization.length < limit then false
       else decide (otf_param ≤
         (migration_time +
           ((if threshold ≤ last then s.overload + 1 else s.overload) : Nat)) /
         (migration_time + ((s.total + 1 : Nat) : ℚ))),
       ⟨if threshold ≤ last then s.overload + 1 else s.overload,
        s.total + 1⟩) := by
  simp only [otf, h, not_le]

/-- C3 — OTF overload detector contract: each invocation increments
`state.total` by 1 and increments `state.overload` iff the last utilization
value is at least the threshold; the decision is `false` when the last value
is below the threshold or the history is shorter than `limit`, and otherwise
equals `(migration_time + overload) / (migration_time + total) ≥ otf` with
the migration time normalized by the factory.  In particular, with parameters
`{otf: 0.5, threshold: 0.7, limit: 3}` and `migration_time = 0`, feeding the
utilization sequence `[0.6, 0.6, 0.8, 0.8]` incrementally from a fresh state
yields the decisions `(false, false, false, true)`. -/
theorem otf_contract (otf_param threshold : ℚ) (limit : Nat)
    (time_step migration_time : ℚ) (utilization : List ℚ)
    (state : Option OtfState) (last : ℚ)
    (hlast : utilization.getLast? = some last) :
    (∃ d s1, otf_factory time_step migration_time otf_param threshold limit
        utilization state = some (d, s1) ∧
      s1.total = (state.getD ⟨0, 0⟩).total + 1 ∧
      s1.overload = (if threshold ≤ last then (state.getD ⟨0, 0⟩).overload + 1
        else (state.getD ⟨0, 0⟩).overload) ∧
      d = (if last < threshold ∨ utilization.length < limit then false
        else decide (otf_param ≤
          (migration_time / time_step + s1.overload) /
          (migration_time / time_step + s1.total)))) ∧
    otf_decisions 1 0 (1/2) (7/10) 3
      [[6/10], [6/10, 6/10], [6/10, 6/10, 8/10], [6/10, 6/10, 8/10, 8/10]]
      ⟨0, 0⟩ = some [false, false, false, true] := by
  constructor
  · exact ⟨_, _,
      otf_some otf_param threshold limit (migration_time / time_step)
        utilization (state.getD ⟨0, 0⟩) last hlast,
      rfl, rfl, rfl⟩
  · norm_num [otf_decisions, otf_factory, otf]

/-- Witness for `otf_contract` at a concrete input. -/
theorem otf_contract_witness :
    ([(3 : ℚ)/10, 8/10].getLast? = some (8/10)) ∧
    (∃ d s1, otf_factory 1 0 (1/2) (7/10) 2 [(3 : ℚ)/10, 8/10] none =
        some (d, s1) ∧
      s1.total = ((none : Option OtfState).getD ⟨0, 0⟩).total + 1 ∧
      s1.overload = (if (7 : ℚ)/10 ≤ 8/10 then
          ((none : Option OtfState).getD ⟨0, 0⟩).overload + 1
        else ((none : Option OtfState).getD ⟨0, 0⟩).overload) ∧
      d = (if (8 : ℚ)/10 < 7/10 ∨ [(3 : ℚ)/10, 8/10].length < 2 then false
        else decide ((1 : ℚ)/2 ≤
          ((0 : ℚ) / 1 + s1.overload) / ((0 : ℚ) / 1 + s1.total)))) ∧
    otf_decisions 1 0 (1/2) (7/10) 3
      [[6/10], [6/10, 6/10], [6/10, 6/10, 8/10], [6/10, 6/10, 8/10, 8/10]]
      ⟨0, 0⟩ = some [false, false, false, true] := by
  have h := otf_contract (1/2) (7/10) 2 1 0 [(3 : ℚ)/10, 8/10] none (8/10)
    (by norm_num)
  exact ⟨by norm_num, h.1, h.2⟩

/-- Threading the OTF wrapper from an arbitrary state adds the number of
ticks to `total` and the number of overloaded ticks to `overload`. -/
theorem otf_thread_general (time_step migration_time otf_param threshold : ℚ)
    (limit : Nat) (us : List (List ℚ)) (s : OtfState)
    (hne : ∀ u ∈ us, u ≠ []) :
    otf_thread time_step migration_time otf_param threshold limit us s =
      some ⟨s.overload +
          us.countP (fun u => decide (threshold ≤ u.getLast?.getD 0)),
        s.total + us.length⟩ := by
  induction us generalizing s with
  | nil => simp [otf_thread]
  | cons u rest ih =>
    have hu : u ≠ [] := hne u (List.mem_cons_self u rest)
    obtain ⟨last, hlast⟩ :=
      Option.isSome_iff_exists.mp (List.getLast?_isSome.mpr hu)
    have hrest : ∀ v ∈ rest, v ≠ [] := fun v hv =>
      hne v (List.mem_cons_of_mem u hv)
    simp only [otf_thread, otf_factory, Option.getD_some]
    rw [otf_some otf_param threshold limit (migration_time / time_step) u s
      last hlast]
    dsimp only
    rw [ih _ hrest]
    simp only [List.countP_cons, hlast, Option.getD_some, List.length_cons]
    by_cases h : threshold ≤ last
    · simp only [if_pos h, decide_eq_true h]
      exact congrArg some (by simp; omega)
    · simp only [if_neg h, decide_eq_false h]
      exact congrArg some (by simp; omega)

/-- C10 — implicit OTF state invariant: starting from a fresh state (`None`
or `{}`, both reset by the wrapper to `{overload: 0, total: 0}`), after the
`k`-th invocation of the detector returned by `otf_factory` the threaded
state satisfies `total = k`, `overload` equals the number of invocations so
far whose utilization history ended with a value `≥ threshold`, and
`0 ≤ overload ≤ total`; the returned state is never empty, so the counters
are never reset across ticks. -/
theorem otf_state_invariant (time_step migration_time otf_param threshold : ℚ)
    (limit : Nat) (us : List (List ℚ)) (hne : ∀ u ∈ us, u ≠ []) :
    (∀ u, otf_factory time_step migration_time otf_param threshold limit u
        none =
      otf_factory time_step migration_time otf_param threshold limit u
        (some ⟨0, 0⟩)) ∧
    otf_thread time_step migration_time otf_param threshold limit us ⟨0, 0⟩ =
      some ⟨us.countP (fun u => decide (threshold ≤ u.getLast?.getD 0)),
        us.length⟩ ∧
    us.countP (fun u => decide (threshold ≤ u.getLast?.getD 0)) ≤
      us.length := by
  refine ⟨fun u => rfl, ?_, List.countP_le_length _⟩
  have h := otf_thread_general time_step migration_time otf_param threshold
    limit us ⟨0, 0⟩ hne
  simpa using h

/-- Witness for `otf_state_invariant` at a concrete input. -/
theorem otf_state_invariant_witness :
    (∀ u ∈ [[(8 : ℚ)/10], [8/10, 4/10]], u ≠ []) ∧
    otf_thread 1 0 (1/2) (7/10) 3 [[(8 : ℚ)/10], [8/10, 4/10]] ⟨0, 0⟩ =
      some ⟨[[(8 : ℚ)/10], [8/10, 4/10]].countP
          (fun u => decide ((7 : ℚ)/10 ≤ u.getLast?.getD 0)),
        [[(8 : ℚ)/10], [8/10, 4/10]].length⟩ := by
  have hne : ∀ u ∈ [[(8 : ℚ)/10], [8/10, 4/10]], u ≠ [] := by
    intro u hu
    fin_cases hu <;> simp
  exact ⟨hne, (otf_state_invariant 1 0 (1/2) (7/10) 3
    [[(8 : ℚ)/10], [8/10, 4/10]] hne).2.1⟩

/-! ### Theorems: utilization_to_state (locals/overload/mhod/core.py) -/

/-- C4 — the `utilization_to_state` round-trip fails on the code: the claim
requires that for every strictly ascending threshold list the returned state
is the unique `s` with `t_{s-1} ≤ u < t_s`, but for
`state_config = [0.2, 0.4, 0.6]` and `u = 0.5` the unique such state is `2`
(`0.4 ≤ 0.5 < 0.6`) while the code returns `3`: the source re-binds `prev`
to the loop index instead of the threshold, so the guard `u ≥ prev` compares
the utilization with the previous state index.  The particular instances of
the claim for `state_config = [0.4, 0.8]` do hold, as also proved here. -/
theorem utilization_to_state_bug :
    utilization_to_state [2/10, 4/10, 6/10] (5/10) = 3 ∧
    utilization_to_state_spec [2/10, 4/10, 6/10] (5/10) = 2 ∧
    ((4 : ℚ)/10 ≤ 5/10 ∧ (5 : ℚ)/10 < 6/10) ∧
    utilization_to_state [2/10, 4/10, 6/10] (5/10) ≠
      utilization_to_state_spec [2/10, 4/10, 6/10] (5/10) ∧
    ((2 : ℚ)/10 < 4/10 ∧ (4 : ℚ)/10 < 6/10) ∧
    utilization_to_state [4/10, 8/10] 0 = 0 ∧
    utilization_to_state [4/10, 8/10] (4/10) = 1 ∧
    utilization_to_state [4/10, 8/10] (7/10) = 1 ∧
    utilization_to_state [4/10, 8/10] (8/10) = 2 ∧
    utilization_to_state [4/10, 8/10] 1 = 2 := by
  norm_num [utilization_to_state, utilization_to_state_spec, uts_loop,
    List.countP, List.countP.go]

/-! ### Theorems: log_host_overload (locals/collector.py) -/

/-- C6 — overload-edge logging: `log_host_overload` computes
`overloaded = (overload_threshold * total_host_mhz < current_total_mhz)`,
inserts a `HostOverloadEvent` iff `previous_overload = -1` or
`previous_overload ≠ int(overloaded)`, and returns `int(overloaded)` as the
new `previous_overload`; starting from `previous_overload = -1` with
threshold `0.8` and total `1000`, utilizations `900, 700, 750` produce an
insert with `overloaded = true`, then an insert with `overloaded = false`,
then no insert. -/
theorem log_host_overload_contract :
    (∀ (threshold : ℚ) (prev total util : Int),
      (log_host_overload threshold prev total util).2 =
        (if threshold * (total : ℚ) < (util : ℚ) then 1 else 0) ∧
      ((log_host_overload threshold prev total util).1 =
          some (decide (threshold * (total : ℚ) < (util : ℚ))) ↔
        (prev = -1 ∨ prev ≠ (log_host_overload threshold prev total util).2)) ∧
      ((log_host_overload threshold prev total util).1 = none ↔
        ¬ (prev = -1 ∨
          prev ≠ (log_host_overload threshold prev total util).2))) ∧
    log_host_overload (8/10) (-1) 1000 900 = (some true, 1) ∧
    log_host_overload (8/10) 1 1000 700 = (some false, 0) ∧
    log_host_overload (8/10) 0 1000 750 = (none, 0) := by
  refine ⟨fun threshold prev total util => ?_, ?_, ?_, ?_⟩
  · refine ⟨by simp [log_host_overload], ?_, ?_⟩ <;>
    · simp only [log_host_overload]
      by_cases hp : prev = -1 <;>
        by_cases ho : threshold * (total : ℚ) < (util : ℚ) <;>
          by_cases hq : prev = 1 <;> by_cases hr : prev = 0 <;>
            simp_all
  · norm_num [log_host_overload]
  · norm_num [log_host_overload]
  · norm_num [log_host_overload]

/-! ### Theorems: per-VM CPU sampling (locals/collector.py) -/

/-- Python truncation agrees with the floor on non-negative values. -/
theorem pyInt_eq_floor (q : ℚ) (h : 0 ≤ q) : pyInt q = ⌊q⌋ :=
  if_neg (not_lt.mpr h)

/-- C7 (counterexample) — the claim says a VM whose hypervisor lookup fails
is skipped for the tick, with no MHz sample produced or recorded for it.  In
the code `get_cpu_time` turns the failure into a CPU time of 0, which the
comparison `current_cpu_time < cpu_time` treats as a counter reset, so the
VM receives its previous MHz value: with the lookup failing for `vm1`, the
produced samples are `[(vm1, 500), (vm2, 1)]`, and in particular a sample is
recorded for `vm1`. -/
theorem get_cpu_mhz_lookup_failure_counterexample :
    ((fun u => if u = "vm1" then none else some 2000000) "vm1" =
      (none : Option Nat)) ∧
    (get_cpu_mhz (fun u => if u = "vm1" then none else some 2000000) 1000
        [("vm1", 100), ("vm2", 1000000)] 0 1 ["vm1", "vm2"]
        (fun u => if u = "vm1" then 500 else 0) (fun _ => [])).2 =
      [("vm1", 500), ("vm2", 1)] ∧
    ¬ (∀ m : Int, ("vm1", m) ∉
      (get_cpu_mhz (fun u => if u = "vm1" then none else some 2000000) 1000
        [("vm1", 100), ("vm2", 1000000)] 0 1 ["vm1", "vm2"]
        (fun u => if u = "vm1" then 500 else 0) (fun _ => [])).2) := by
  refine ⟨by norm_num, ?_, ?_⟩
  · simp only [get_cpu_mhz, get_cpu_time, calculate_cpu_mhz, pyInt,
      get_added_vms, substract_lists]
    simp
    norm_num
  · intro hall
    exact hall 500 (by
      simp only [get_cpu_mhz, get_cpu_time, calculate_cpu_mhz, pyInt,
        get_added_vms, substract_lists]
      simp)

/-- C7 (amended) — per-entity failure isolation in CPU sampling: when the
hypervisor lookup fails for a VM UUID that was present last tick (recorded
positive CPU time) and is still observed, the VM is not skipped: its CPU
time reads as 0, which the code treats as a counter reset, so the VM
receives its previous MHz value as this tick's sample; every other VM whose
lookup succeeds is sampled as well, and the loop never fails. -/
theorem get_cpu_mhz_failure_isolation (vir_connection : String → Option Nat)
    (physical_core_mhz : ℚ) (previous_cpu_time : List (String × Nat))
    (previous_time current_time : ℚ) (current_vms : List String)
    (previous_cpu_mhz : String → Int) (added_vm_data : String → List Int)
    (uuid : String) (t : Nat) (hfail : vir_connection uuid = none)
    (hmem : (uuid, t) ∈ previous_cpu_time) (hcur : uuid ∈ current_vms)
    (ht : 0 < t) :
    (uuid, previous_cpu_mhz uuid) ∈
      (get_cpu_mhz vir_connection physical_core_mhz previous_cpu_time
        previous_time current_time current_vms previous_cpu_mhz
        added_vm_data).2 ∧
    ∀ uuid2 t2, (uuid2, t2) ∈ previous_cpu_time → uuid2 ∈ current_vms →
      ∃ m, (uuid2, m) ∈
        (get_cpu_mhz vir_connection physical_core_mhz previous_cpu_time
          previous_time current_time current_vms previous_cpu_mhz
          added_vm_data).2 := by
  constructor
  · apply List.mem_append_left
    apply List.mem_map.mpr
    refine ⟨(uuid, t), List.mem_filter.mpr ⟨hmem, by simpa using hcur⟩, ?_⟩
    have h0 : get_cpu_time vir_connection uuid = 0 := by
      simp [get_cpu_time, hfail]
    simp [h0, ht]
  · intro uuid2 t2 hmem2 hcur2
    refine ⟨_, List.mem_append_left _ (List.mem_map.mpr
      ⟨(uuid2, t2), List.mem_filter.mpr ⟨hmem2, by simpa using hcur2⟩,
        rfl⟩)⟩

/-- Witness for `get_cpu_mhz_failure_isolation` at a concrete input. -/
theorem get_cpu_mhz_failure_isolation_witness :
    ((fun u => if u = "vm1" then none else some 2000000) "vm1" =
        (none : Option Nat)) ∧
    (("vm1", 100) ∈ [("vm1", 100), ("vm2", 1000000)]) ∧
    ("vm1" ∈ ["vm1", "vm2"]) ∧ 0 < 100 ∧
    ("vm1", (fun u => if u = "vm1" then (500 : Int) else 0) "vm1") ∈
      (get_cpu_mhz (fun u => if u = "vm1" then none else some 2000000) 1000
        [("vm1", 100), ("vm2", 1000000)] 0 1 ["vm1", "vm2"]
        (fun u => if u = "vm1" then 500 else 0) (fun _ => [])).2 := by
  refine ⟨by norm_num, by simp, by simp, by norm_num, ?_⟩
  exact (get_cpu_mhz_failure_isolation
    (fun u => if u = "vm1" then none else some 2000000) 1000
    [("vm1", 100), ("vm2", 1000000)] 0 1 ["vm1", "vm2"]
    (fun u => if u = "vm1" then 500 else 0) (fun _ => []) "vm1" 100
    (by norm_num) (by simp) (by simp) (by norm_num)).1

/-- C8 (counterexample) — the claim says the MHz sample equals
`round(physical_core_mhz * Δcpu_time / (Δwall_time * 1e9))`, rounding to the
nearest integer.  The code applies Python `int(_)`, which truncates: for
`physical_core_mhz = 1000`, `Δcpu_time = 1 700 000 ns` and `Δwall_time = 1 s`
the exact quotient is `1.7`, the code produces `1`, and rounding to the
nearest integer gives `2`. -/
theorem calculate_cpu_mhz_not_round :
    (get_cpu_mhz (fun _ => some 1700000) 1000 [("vm1", 0)] 0 1 ["vm1"]
        (fun _ => 0) (fun _ => [])).2 = [("vm1", 1)] ∧
    calculate_cpu_mhz 1000 0 1 0 1700000 = 1 ∧
    round ((1000 : ℚ) * (((1700000 : Nat) : ℚ) - ((0 : Nat) : ℚ)) /
      (((1 : ℚ) - 0) * 1000000000)) = 2 ∧
    (1 : Int) ≠ 2 := by
  refine ⟨?_, ?_, ?_, by norm_num⟩
  · simp only [get_cpu_mhz, get_cpu_time, calculate_cpu_mhz, pyInt,
      get_added_vms, substract_lists]
    simp
    norm_num
  · norm_num [calculate_cpu_mhz, pyInt]
  · rw [show (1000 : ℚ) * (((1700000 : Nat) : ℚ) - ((0 : Nat) : ℚ)) /
      (((1 : ℚ) - 0) * 1000000000) = 17/10 by norm_num]
    rw [round_eq]
    norm_num

/-- C8 (amended) — VM MHz conversion truncation: for every VM present in the
previous tick whose current CPU time is at least its previous CPU time, the
MHz sample produced for it equals the truncation (equivalently the floor,
the value being non-negative) of
`physical_core_mhz * (current_cpu_time - previous_cpu_time) /
((current_time - previous_time) * 1e9)`, for all valid inputs with
`current_time > previous_time`. -/
theorem calculate_cpu_mhz_truncates (vir_connection : String → Option Nat)
    (physical_core_mhz : ℚ) (previous_cpu_time : List (String × Nat))
    (previous_time current_time : ℚ) (current_vms : List String)
    (previous_cpu_mhz : String → Int) (added_vm_data : String → List Int)
    (uuid : String) (t c : Nat) (hphys : 0 ≤ physical_core_mhz)
    (hconn : vir_connection uuid = some c)
    (hmem : (uuid, t) ∈ previous_cpu_time) (hcur : uuid ∈ current_vms)
    (htc : t ≤ c) (htime : previous_time < current_time) :
    calculate_cpu_mhz physical_core_mhz previous_time current_time t c =
      ⌊physical_core_mhz * ((c : ℚ) - (t : ℚ)) /
        ((current_time - previous_time) * 1000000000)⌋ ∧
    (uuid, ⌊physical_core_mhz * ((c : ℚ) - (t : ℚ)) /
        ((current_time - previous_time) * 1000000000)⌋) ∈
      (get_cpu_mhz vir_connection physical_core_mhz previous_cpu_time
        previous_time current_time current_vms previous_cpu_mhz
        added_vm_data).2 := by
  have hct : (t : ℚ) ≤ (c : ℚ) := by exact_mod_cast htc
  have hq : 0 ≤ physical_core_mhz * ((c : ℚ) - (t : ℚ)) /
      ((current_time - previous_time) * 1000000000) := by
    apply div_nonneg
    · exact mul_nonneg hphys (sub_nonneg.mpr hct)
    · exact le_of_lt (mul_pos (sub_pos.mpr htime) (by norm_num))
  have hcalc : calculate_cpu_mhz physical_core_mhz previous_time current_time
      t c = ⌊physical_core_mhz * ((c : ℚ) - (t : ℚ)) /
        ((current_time - previous_time) * 1000000000)⌋ := by
    rw [calculate_cpu_mhz, pyInt_eq_floor _ hq]
  refine ⟨hcalc, ?_⟩
  apply List.mem_append_left
  apply List.mem_map.mpr
  refine ⟨(uuid, t), List.mem_filter.mpr ⟨hmem, by simpa using hcur⟩, ?_⟩
  have hct : get_cpu_time vir_connection uuid = c := by
    simp [get_cpu_time, hconn]
  simp only [hct, hcalc, if_neg (not_lt.mpr htc)]

/-- Witness for `calculate_cpu_mhz_truncates` at a concrete input. -/
theorem calculate_cpu_mhz_truncates_witness :
    (0 : ℚ) ≤ 1000 ∧
    ((fun _ : String => some 1700000) "vm1" = some 1700000) ∧
    (("vm1", 0) ∈ [("vm1", (0 : Nat))]) ∧ ("vm1" ∈ ["vm1"]) ∧
    (0 : Nat) ≤ 1700000 ∧ (0 : ℚ) < 1 ∧
    calculate_cpu_mhz 1000 0 1 0 1700000 =
      ⌊(1000 : ℚ) * (((1700000 : Nat) : ℚ) - ((0 : Nat) : ℚ)) /
        (((1 : ℚ) - 0) * 1000000000)⌋ := by
  refine ⟨by norm_num, rfl, by simp, by simp, by norm_num, by norm_num, ?_⟩
  exact (calculate_cpu_mhz_truncates (fun _ => some 1700000) 1000
    [("vm1", 0)] 0 1 ["vm1"] (fun _ => 0) (fun _ => []) "vm1" 0 1700000
    (by norm_num) rfl (by simp) (by simp) (by norm_num) (by norm_num)).1

/-! ### Theorems: vm_mhz_to_percentage (locals/manager.py) -/

/-- C5 (counterexample) — the claim says that when every individual value of
the VM and host histories is non-negative and bounded by
`physical_cpu_mhz_total`, every returned value lies in `[0, 1]`.  With two
VMs each at the full capacity of 1000 MHz and an idle host, every input
value is within `[0, 1000]`, yet the returned utilization is `2`. -/
theorem vm_mhz_to_percentage_counterexample :
    (∀ x ∈ [[(1000 : ℚ)], [1000]], ∀ v ∈ x, 0 ≤ v ∧ v ≤ 1000) ∧
    (∀ v ∈ [(0 : ℚ)], 0 ≤ v ∧ v ≤ 1000) ∧
    vm_mhz_to_percentage [[(1000 : ℚ)], [1000]] [0] 1000 = [2] ∧
    ¬ ((2 : ℚ) ≤ 1) := by
  refine ⟨?_, by norm_num, ?_, by norm_num⟩
  · intro x hx
    fin_cases hx <;> · intro v hv; fin_cases hv <;> norm_num
  · norm_num [vm_mhz_to_percentage, alignedColumnSum, maxVmHistoryLen,
      leftPad, truncateHost, List.range_succ]

/-- C5 (amended) — `vm_mhz_to_percentage` shape and range: for a non-empty
collection of VM MHz histories the output length equals the maximum
VM-history length, and every returned value lies in `[0, 1]` provided the
physical capacity is positive and at every time index the total MHz (the sum
of the zero-padded VM values plus the host value) lies between 0 and
`physical_cpu_mhz_total` — a bound on each individual value is not enough,
the per-index sum must be bounded. -/
theorem vm_mhz_to_percentage_bounds (vm_mhz_history : List (List ℚ))
    (host_mhz_history : List ℚ) (physical_cpu_mhz : ℚ)
    (hne : vm_mhz_history ≠ []) (hphys : 0 < physical_cpu_mhz)
    (hcol : ∀ i, 0 ≤ alignedColumnSum vm_mhz_history host_mhz_history i ∧
      alignedColumnSum vm_mhz_history host_mhz_history i ≤
        physical_cpu_mhz) :
    (vm_mhz_to_percentage vm_mhz_history host_mhz_history
        physical_cpu_mhz).length = maxVmHistoryLen vm_mhz_history ∧
    ∀ v ∈ vm_mhz_to_percentage vm_mhz_history host_mhz_history
        physical_cpu_mhz, 0 ≤ v ∧ v ≤ 1 := by
  constructor
  · simp [vm_mhz_to_percentage]
  · intro v hv
    obtain ⟨i, _, rfl⟩ := List.mem_map.mp hv
    constructor
    · exact div_nonneg (hcol i).1 (le_of_lt hphys)
    · rw [div_le_one hphys]
      exact (hcol i).2

/-- Witness for `vm_mhz_to_percentage_bounds` at a concrete input. -/
theorem vm_mhz_to_percentage_bounds_witness :
    ([[(500 : ℚ)], [300]] ≠ ([] : List (List ℚ))) ∧ ((0 : ℚ) < 1000) ∧
    (∀ i, 0 ≤ alignedColumnSum [[(500 : ℚ)], [300]] [100] i ∧
      alignedColumnSum [[(500 : ℚ)], [300]] [100] i ≤ 1000) ∧
    (vm_mhz_to_percentage [[(500 : ℚ)], [300]] [100] 1000).length =
      maxVmHistoryLen [[(500 : ℚ)], [300]] ∧
    ∀ v ∈ vm_mhz_to_percentage [[(500 : ℚ)], [300]] [100] 1000,
      0 ≤ v ∧ v ≤ 1 := by
  have hcol : ∀ i, 0 ≤ alignedColumnSum [[(500 : ℚ)], [300]] [100] i ∧
      alignedColumnSum [[(500 : ℚ)], [300]] [100] i ≤ 1000 := by
    intro i
    match i with
    | 0 =>
      norm_num [alignedColumnSum, maxVmHistoryLen, leftPad, truncateHost]
    | n + 1 =>
      norm_num [alignedColumnSum, maxVmHistoryLen, leftPad, truncateHost,
        List.getD]
  refine ⟨by simp, by norm_num, hcol, ?_⟩
  exact vm_mhz_to_percentage_bounds [[(500 : ℚ)], [300]] [100] 1000
    (by simp) (by norm_num) hcol

/-! ### Theorems: execute_overload VM pruning (globals/manager.py) -/

/-- C9 — the claim says the VMs handed to the placement algorithm
(`vms_to_migrate` and the keys of `vms_cpu` / `vms_ram`) are exactly the
subset of the input `vm_uuids` with CPU history and known RAM, every
unknown-RAM UUID being removed, including lists with several consecutive
unknown-RAM VMs.  For `vm_uuids = [a, b, c]`, all with CPU history and RAM
known only for `c`, the claimed subset is `[c]`, and the keys of `vms_cpu`
and `vms_ram` are indeed `[c]`; but deleting from the list being iterated
skips the element that slides into a freed slot, so `vms_to_migrate` ends as
`[b, c]`, keeping the unknown-RAM VM `b` at the placement call — the loop
`for i, vm in enumerate(vms_to_migrate): del vms_to_migrate[i]` contradicts
the removal its own comment states. -/
theorem execute_overload_prep_bug :
    execute_overload_prep ["a", "b", "c"] (fun _ => true)
        (fun v => v == "c") =
      .place ["b", "c"] ["c"] ["c"] ∧
    ("b" ∈ ["b", "c"] ∧ (fun v : String => v == "c") "b" = false) ∧
    ["a", "b", "c"].filter
      (fun v => (fun _ : String => true) v && (fun v : String => v == "c") v)
      = ["c"] ∧
    (["b", "c"] : List String) ≠ ["c"] := by
  refine ⟨?_, by decide, by decide, by decide⟩
  decide

/-! ### Theorems: best_fit_decreasing (globals/vm_placement/bin_packing.py) -/

/-- Appending one placement to the mapping adds that demand to its host. -/
theorem placedSum_append (dem : String → Int) (m : List (String × String))
    (v h0 h : String) :
    placedSum dem (m ++ [(v, h0)]) h =
      placedSum dem m h + (if h0 = h then dem v else 0) := by
  simp only [placedSum, List.filter_append, List.map_append, List.sum_append]
  by_cases hh : h0 = h
  · simp [List.filter_singleton, hh]
  · simp [List.filter_singleton, hh]

/-- A host returned by the scan satisfies both availability tests. -/
theorem findHost_spec (hosts_cpu hosts_ram : String → Int) (c r : Int)
    (L : List (Int × Int × String)) (h : String)
    (hf : findHost hosts_cpu hosts_ram c r L = some h) :
    c ≤ hosts_cpu h ∧ r ≤ hosts_ram h := by
  induction L with
  | nil => simp [findHost] at hf
  | cons t rest ih =>
    by_cases hc : c ≤ hosts_cpu t.2.2 ∧ r ≤ hosts_ram t.2.2
    · rw [findHost, if_pos hc, Option.some_inj] at hf
      exact hf ▸ hc
    · rw [findHost, if_neg hc] at hf
      exact ih hf

/-- Membership is preserved by sorted insertion. -/
theorem mem_insertSorted (le : Int × Int × String → Int × Int × String →
    Bool) (x a : Int × Int × String) (l : List (Int × Int × String)) :
    a ∈ insertSorted le x l ↔ a = x ∨ a ∈ l := by
  induction l with
  | nil => simp [insertSorted]
  | cons y ys ih =>
    by_cases hxy : le x y
    · simp [insertSorted, hxy, List.mem_cons]
    · simp only [insertSorted, if_neg hxy, List.mem_cons, ih]
      tauto

/-- Membership is preserved by the stable sort. -/
theorem mem_pySorted (le : Int × Int × String → Int × Int × String → Bool)
    (a : Int × Int × String) (l : List (Int × Int × String)) :
    a ∈ pySorted le l ↔ a ∈ l := by
  induction l with
  | nil => simp [pySorted]
  | cons y ys ih =>
    simp only [pySorted, List.foldr_cons, List.mem_cons]
    rw [mem_insertSorted]
    simp only [pySorted] at ih
    rw [ih]

/-- The invariant of the BFD placement loop, relative to the initial
availability functions `A0c`/`A0r` of the initially active hosts and the
demand functions: for every initially active host name the current
availability plus the charged demand equals the initial availability, the
availability is non-negative as soon as the host received some VM, and
every remaining inactive triple carries an inactive host name. -/
def BfdInv (A0c A0r demC demR : String → Int)
    (active_names inactive_names : List String) (s : BfdState) : Prop :=
  (∀ h ∈ active_names,
    (s.hosts_cpu h + placedSum demC s.mapping h = A0c h ∧
     s.hosts_ram h + placedSum demR s.mapping h = A0r h) ∧
    ((∃ p ∈ s.mapping, p.2 = h) →
      0 ≤ s.hosts_cpu h ∧ 0 ≤ s.hosts_ram h)) ∧
  ∀ t ∈ s.inactive, t.2.2 ∈ inactive_names

/-- Recording one placement preserves the invariant. -/
theorem BfdInv_place (A0c A0r demC demR : String → Int)
    (active_names inactive_names : List String)
    (vm_cpu vm_ram : Int) (vm : String)
    (hd : vm_cpu = demC vm) (hr : vm_ram = demR vm)
    (inact hosts : List (Int × Int × String))
    (hosts_cpu hosts_ram : String → Int) (mapping : List (String × String))
    (host0 : String)
    (hf : findHost hosts_cpu hosts_ram vm_cpu vm_ram hosts = some host0)
    (hinv : BfdInv A0c A0r demC demR active_names inactive_names
      ⟨hosts, inact, hosts_cpu, hosts_ram, mapping⟩) :
    BfdInv A0c A0r demC demR active_names inactive_names
      ⟨hosts, inact, updMap hosts_cpu host0 (hosts_cpu host0 - vm_cpu),
        updMap hosts_ram host0 (hosts_ram host0 - vm_ram),
        mapping ++ [(vm, host0)]⟩ := by
  obtain ⟨hact, hina⟩ := hinv
  refine ⟨?_, hina⟩
  intro h hh
  obtain ⟨⟨hsc, hsr⟩, hpos⟩ := hact h hh
  dsimp only at hsc hsr hpos ⊢
  by_cases he : h = host0
  · subst he
    obtain ⟨hfc, hfr⟩ := findHost_spec hosts_cpu hosts_ram vm_cpu vm_ram
      hosts h hf
    refine ⟨⟨?_, ?_⟩, fun _ => ⟨?_, ?_⟩⟩
    · rw [placedSum_append]
      simp [updMap]
      omega
    · rw [placedSum_append]
      simp [updMap]
      omega
    · simp [updMap]
      omega
    · simp [updMap]
      omega
  · have he2 : ¬ (host0 = h) := fun hx => he hx.symm
    refine ⟨⟨?_, ?_⟩, ?_⟩
    · rw [placedSum_append]
      simp only [updMap, if_neg he, if_neg he2, add_zero]
      exact hsc
    · rw [placedSum_append]
      simp only [updMap, if_neg he, if_neg he2, add_zero]
      exact hsr
    · intro hex
      obtain ⟨p, hp, hph⟩ := hex
      rcases List.mem_append.mp hp with hp1 | hp2
      · have := hpos ⟨p, hp1, hph⟩
        simpa only [updMap, if_neg he] using this
      · exfalso
        have hpe : p = (vm, host0) := by simpa using hp2
        exact he (by rw [← hph, hpe])

/-- The per-VM placement loop preserves the invariant, provided the
activated host names are disjoint from the initially active ones and the
demands are those of the demand functions. -/
theorem placeVm_inv (A0c A0r demC demR : String → Int)
    (active_names inactive_names : List String)
    (hdisj : ∀ h ∈ inactive_names, h ∉ active_names)
    (vm_cpu vm_ram : Int) (vm : String)
    (hd : vm_cpu = demC vm) (hr : vm_ram = demR vm)
    (inact : List (Int × Int × String)) :
    ∀ (hosts : List (Int × Int × String))
      (hosts_cpu hosts_ram : String → Int)
      (mapping : List (String × String)),
    BfdInv A0c A0r demC demR active_names inactive_names
      ⟨hosts, inact, hosts_cpu, hosts_ram, mapping⟩ →
    BfdInv A0c A0r demC demR active_names inactive_names
      (placeVm vm_cpu vm_ram vm inact hosts hosts_cpu hosts_ram mapping) := by
  induction inact with
  | nil =>
    intro hosts hosts_cpu hosts_ram mapping hinv
    rw [placeVm]
    cases hf : findHost hosts_cpu hosts_ram vm_cpu vm_ram hosts with
    | some host0 =>
      exact BfdInv_place A0c A0r demC demR active_names inactive_names
        vm_cpu vm_ram vm hd hr [] hosts hosts_cpu hosts_ram mapping host0 hf
        hinv
    | none => exact ⟨hinv.1, by simp⟩
  | cons a rest ih =>
    intro hosts hosts_cpu hosts_ram mapping hinv
    rw [placeVm]
    cases hf : findHost hosts_cpu hosts_ram vm_cpu vm_ram hosts with
    | some host0 =>
      exact BfdInv_place A0c A0r demC demR active_names inactive_names
        vm_cpu vm_ram vm hd hr (a :: rest) hosts hosts_cpu hosts_ram mapping
        host0 hf hinv
    | none =>
      apply ih
      obtain ⟨hact, hina⟩ := hinv
      have hanot : a.2.2 ∉ active_names :=
        hdisj a.2.2 (hina a (List.mem_cons_self a rest))
      constructor
      · intro h hh
        obtain ⟨⟨hsc, hsr⟩, hpos⟩ := hact h hh
        have hne : h ≠ a.2.2 := fun he => hanot (he ▸ hh)
        refine ⟨⟨?_, ?_⟩, ?_⟩
        · simpa only [updMap, if_neg hne] using hsc
        · simpa only [updMap, if_neg hne] using hsr
        · intro hex
          have := hpos hex
          simpa only [updMap, if_neg hne] using this
      · intro t ht
        exact hina t (List.mem_cons_of_mem a ht)

/-- The outer VM loop preserves the invariant when every VM triple carries
the demands of its VM. -/
theorem placeAll_inv (A0c A0r demC demR : String → Int)
    (active_names inactive_names : List String)
    (hdisj : ∀ h ∈ inactive_names, h ∉ active_names)
    (vms : List (Int × Int × String))
    (hvms : ∀ t ∈ vms, t.1 = demC t.2.2 ∧ t.2.1 = demR t.2.2) :
    ∀ s : BfdState,
    BfdInv A0c A0r demC demR active_names inactive_names s →
    BfdInv A0c A0r demC demR active_names inactive_names (placeAll vms s) := by
  induction vms with
  | nil =>
    intro s hinv
    exact hinv
  | cons t rest ih =>
    intro s hinv
    obtain ⟨c, r, v⟩ := t
    have ht := hvms (c, r, v) (List.mem_cons_self _ rest)
    rw [placeAll]
    apply ih
    · intro t2 ht2
      exact hvms t2 (List.mem_cons_of_mem _ ht2)
    · exact placeVm_inv A0c A0r demC demR active_names inactive_names hdisj
        c r v ht.1 ht.2 s.inactive s.hosts s.hosts_cpu s.hosts_ram
        s.mapping hinv

/-- The truncated availability is at most `threshold * total` when the
usage is non-negative and the threshold and total are non-negative. -/
theorem get_available_resources_le (threshold : ℚ) (usage total :
    String → Int) (h : String) (hθ : 0 ≤ threshold) (hu : 0 ≤ usage h)
    (ht : 0 ≤ total h) :
    ((get_available_resources threshold usage total h : Int) : ℚ) ≤
      threshold * (total h : ℚ) := by
  have hu2 : (0 : ℚ) ≤ (usage h : ℚ) := by exact_mod_cast hu
  have ht2 : (0 : ℚ) ≤ (total h : ℚ) := by exact_mod_cast ht
  simp only [get_available_resources, pyInt]
  by_cases hq : threshold * (total h : ℚ) - (usage h : ℚ) < 0
  · rw [if_pos hq]
    have hc : (⌈threshold * (total h : ℚ) - (usage h : ℚ)⌉ : Int) ≤ 0 :=
      Int.ceil_le.mpr (by push_cast; linarith)
    have : ((⌈threshold * (total h : ℚ) - (usage h : ℚ)⌉ : Int) : ℚ) ≤ 0 := by
      exact_mod_cast hc
    nlinarith
  · rw [if_neg hq]
    calc ((⌊threshold * (total h : ℚ) - (usage h : ℚ)⌋ : Int) : ℚ) ≤
        threshold * (total h : ℚ) - (usage h : ℚ) := Int.floor_le _
      _ ≤ threshold * (total h : ℚ) := by linarith

/-- `best_fit_decreasing` returns either `{}` or the mapping accumulated by
the placement loop. -/
theorem best_fit_decreasing_cases (last_n_vm_cpu : Nat)
    (host_names : List String) (hosts_cpu hosts_ram : String → Int)
    (inactive_names : List String)
    (inactive_hosts_cpu inactive_hosts_ram : String → Int)
    (vm_names : List String) (vms_cpu : String → List Int)
    (vms_ram : String → Int) :
    best_fit_decreasing last_n_vm_cpu host_names hosts_cpu hosts_ram
      inactive_names inactive_hosts_cpu inactive_hosts_ram vm_names vms_cpu
      vms_ram = [] ∨
    best_fit_decreasing last_n_vm_cpu host_names hosts_cpu hosts_ram
      inactive_names inactive_hosts_cpu inactive_hosts_ram vm_names vms_cpu
      vms_ram = (placeAll
        (pySorted (fun a b => tripleLe b a)
          (vmTriples last_n_vm_cpu vm_names vms_cpu vms_ram))
        ⟨hostTriples host_names hosts_cpu hosts_ram,
         hostTriples inactive_names inactive_hosts_cpu inactive_hosts_ram,
         hosts_cpu, hosts_ram, []⟩).mapping := by
  simp only [best_fit_decreasing]
  by_cases hlen : (pySorted (fun a b => tripleLe b a)
      (vmTriples last_n_vm_cpu vm_names vms_cpu vms_ram)).length =
    (placeAll
      (pySorted (fun a b => tripleLe b a)
        (vmTriples last_n_vm_cpu vm_names vms_cpu vms_ram))
      ⟨hostTriples host_names hosts_cpu hosts_ram,
       hostTriples inactive_names inactive_hosts_cpu inactive_hosts_ram,
       hosts_cpu, hosts_ram, []⟩).mapping.length
  · exact Or.inr (if_pos hlen)
  · exact Or.inl (if_neg hlen)

/-- C1 — BFD capacity correctness: for any input with non-negative per-host
usage (and non-negative thresholds and totals, inactive host names distinct
from the active ones), if `best_fit_decreasing` applied to the
availabilities computed by `get_available_resources` returns a non-empty
mapping `M`, then every initially active host `h` that receives VMs under
`M` satisfies `Σ cpu_demand ≤ cpu_threshold * total_cpu[h]` and
`Σ ram_demand ≤ ram_threshold * total_ram[h]`, the CPU demand of a VM being
the (integer) mean of the last `last_n_vm_cpu` CPU values. -/
theorem bfd_capacity (cpu_threshold ram_threshold : ℚ) (last_n : Nat)
    (active_names : List String)
    (cpu_usage ram_usage cpu_total ram_total : String → Int)
    (inactive_names : List String) (inactive_cpu inactive_ram : String → Int)
    (vm_names : List String) (vms_cpu : String → List Int)
    (vms_ram : String → Int)
    (hthc : 0 ≤ cpu_threshold) (hthr : 0 ≤ ram_threshold)
    (husage : ∀ h ∈ active_names, 0 ≤ cpu_usage h ∧ 0 ≤ ram_usage h)
    (htotal : ∀ h ∈ active_names, 0 ≤ cpu_total h ∧ 0 ≤ ram_total h)
    (hdisj : ∀ h ∈ inactive_names, h ∉ active_names)
    (M : List (String × String))
    (hM : M = best_fit_decreasing last_n active_names
      (get_available_resources cpu_threshold cpu_usage cpu_total)
      (get_available_resources ram_threshold ram_usage ram_total)
      inactive_names inactive_cpu inactive_ram vm_names vms_cpu vms_ram)
    (hMne : M ≠ []) (h : String) (hh : h ∈ active_names)
    (hrecv : ∃ p ∈ M, p.2 = h) :
    ((placedSum (fun v => meanLastN last_n (vms_cpu v)) M h : Int) : ℚ) ≤
      cpu_threshold * (cpu_total h : ℚ) ∧
    ((placedSum vms_ram M h : Int) : ℚ) ≤
      ram_threshold * (ram_total h : ℚ) := by
  rcases best_fit_decreasing_cases last_n active_names
      (get_available_resources cpu_threshold cpu_usage cpu_total)
      (get_available_resources ram_threshold ram_usage ram_total)
      inactive_names inactive_cpu inactive_ram vm_names vms_cpu vms_ram with
    hc | hc
  · exact absurd (hM.trans hc) hMne
  · rw [hc] at hM
    have hvms0 : ∀ t ∈ pySorted (fun a b => tripleLe b a)
        (vmTriples last_n vm_names vms_cpu vms_ram),
        t.1 = (fun v => meanLastN last_n (vms_cpu v)) t.2.2 ∧
        t.2.1 = vms_ram t.2.2 := by
      intro t ht
      rw [mem_pySorted] at ht
      obtain ⟨v, _, heq⟩ := List.mem_filterMap.mp ht
      by_cases hv : vms_cpu v ≠ []
      · rw [if_pos hv, Option.some_inj] at heq
        subst heq
        exact ⟨rfl, rfl⟩
      · rw [if_neg hv] at heq
        exact absurd heq (by simp)
    have hinv0 : BfdInv
        (get_available_resources cpu_threshold cpu_usage cpu_total)
        (get_available_resources ram_threshold ram_usage ram_total)
        (fun v => meanLastN last_n (vms_cpu v)) vms_ram active_names
        inactive_names
        ⟨hostTriples active_names
          (get_available_resources cpu_threshold cpu_usage cpu_total)
          (get_available_resources ram_threshold ram_usage ram_total),
         hostTriples inactive_names inactive_cpu inactive_ram,
         get_available_resources cpu_threshold cpu_usage cpu_total,
         get_available_resources ram_threshold ram_usage ram_total, []⟩ := by
      constructor
      · intro h2 _
        refine ⟨⟨?_, ?_⟩, ?_⟩
        · simp [placedSum]
        · simp [placedSum]
        · intro hex
          obtain ⟨p, hp, _⟩ := hex
          exact absurd hp (by simp)
      · intro t ht
        dsimp only at ht
        rw [hostTriples, mem_pySorted] at ht
        obtain ⟨hname, hmem, heq⟩ := List.mem_map.mp ht
        rw [← heq]
        exact hmem
    have hfin := placeAll_inv
      (get_available_resources cpu_threshold cpu_usage cpu_total)
      (get_available_resources ram_threshold ram_usage ram_total)
      (fun v => meanLastN last_n (vms_cpu v)) vms_ram active_names
      inactive_names hdisj
      (pySorted (fun a b => tripleLe b a)
        (vmTriples last_n vm_names vms_cpu vms_ram)) hvms0 _ hinv0
    obtain ⟨⟨hsc, hsr⟩, hpos⟩ := hfin.1 h hh
    rw [← hM] at hsc hsr hpos
    obtain ⟨hc0, hr0⟩ := hpos hrecv
    have hcInt : placedSum (fun v => meanLastN last_n (vms_cpu v)) M h ≤
        get_available_resources cpu_threshold cpu_usage cpu_total h := by
      omega
    have hrInt : placedSum vms_ram M h ≤
        get_available_resources ram_threshold ram_usage ram_total h := by
      omega
    constructor
    · calc ((placedSum (fun v => meanLastN last_n (vms_cpu v)) M h : Int) :
          ℚ) ≤ ((get_available_resources cpu_threshold cpu_usage cpu_total h
            : Int) : ℚ) := by exact_mod_cast hcInt
        _ ≤ cpu_threshold * (cpu_total h : ℚ) :=
          get_available_resources_le cpu_threshold cpu_usage cpu_total h
            hthc (husage h hh).1 (htotal h hh).1
    · calc ((placedSum vms_ram M h : Int) : ℚ) ≤
          ((get_available_resources ram_threshold ram_usage ram_total h :
            Int) : ℚ) := by exact_mod_cast hrInt
        _ ≤ ram_threshold * (ram_total h : ℚ) :=
          get_available_resources_le ram_threshold ram_usage ram_total h
            hthr (husage h hh).2 (htotal h hh).2

/-- Witness for `bfd_capacity` at a concrete input with a non-empty
placement. -/
theorem bfd_capacity_witness :
    best_fit_decreasing 1 ["h1"]
      (get_available_resources 1 (fun _ => 0) (fun _ => 1000))
      (get_available_resources 1 (fun _ => 0) (fun _ => 2048))
      [] (fun _ => 0) (fun _ => 0) ["v1"] (fun _ => [600])
      (fun _ => 1000) ≠ [] ∧
    ((placedSum (fun v => meanLastN 1 ((fun _ : String => [(600 : Int)]) v))
        (best_fit_decreasing 1 ["h1"]
          (get_available_resources 1 (fun _ => 0) (fun _ => 1000))
          (get_available_resources 1 (fun _ => 0) (fun _ => 2048))
          [] (fun _ => 0) (fun _ => 0) ["v1"] (fun _ => [600])
          (fun _ => 1000)) "h1" : Int) : ℚ) ≤
      1 * (((1000 : Int) : ℚ)) := by
  have hA : get_available_resources 1 (fun _ => 0) (fun _ => 1000) =
      fun _ => (1000 : Int) :=
    funext fun x => by norm_num [get_available_resources, pyInt]
  have hB : get_available_resources 1 (fun _ => 0) (fun _ => 2048) =
      fun _ => (2048 : Int) :=
    funext fun x => by norm_num [get_available_resources, pyInt]
  have hMne : best_fit_decreasing 1 ["h1"]
      (get_available_resources 1 (fun _ => 0) (fun _ => 1000))
      (get_available_resources 1 (fun _ => 0) (fun _ => 2048))
      [] (fun _ => 0) (fun _ => 0) ["v1"] (fun _ => [600])
      (fun _ => 1000) ≠ [] := by
    rw [hA, hB]; decide
  have hrecv : ∃ p ∈ best_fit_decreasing 1 ["h1"]
      (get_available_resources 1 (fun _ => 0) (fun _ => 1000))
      (get_available_resources 1 (fun _ => 0) (fun _ => 2048))
      [] (fun _ => 0) (fun _ => 0) ["v1"] (fun _ => [600])
      (fun _ => 1000), p.2 = "h1" := by
    rw [hA, hB]; decide
  refine ⟨hMne, ?_⟩
  exact (bfd_capacity 1 1 1 ["h1"] (fun _ => 0) (fun _ => 0)
    (fun _ => 1000) (fun _ => 2048) [] (fun _ => 0) (fun _ => 0) ["v1"]
    (fun _ => [600]) (fun _ => 1000) (by norm_num) (by norm_num)
    (fun h _ => ⟨le_refl 0, le_refl 0⟩)
    (fun h _ => ⟨by norm_num, by norm_num⟩) (fun h hmem => by simp at hmem)
    _ rfl hMne "h1" (by simp) hrecv).1

/-- C2 (counterexample) — the claim says that on the literal scenario-1
inputs (two hosts with 1000 MHz / 2048 MB, thresholds 1.0, zero usage, no
inactive hosts, three VMs of 600 MHz / 1000 MB, `last_n_vm_cpu = 1`) the
placement returns a mapping of all three VMs, e.g. `{v1:h1, v2:h2, v3:h1}`.
It does not: two 600 MHz VMs exceed a 1000 MHz host, so only two VMs can be
placed, the greedy loop leaves the third unmapped, and the function returns
`{}` — in particular no VM is mapped at all. -/
theorem bfd_scenario1_counterexample :
    best_fit_decreasing 1 ["h1", "h2"]
      (get_available_resources 1 (fun _ => 0) (fun _ => 1000))
      (get_available_resources 1 (fun _ => 0) (fun _ => 2048))
      [] (fun _ => 0) (fun _ => 0) ["v1", "v2", "v3"] (fun _ => [600])
      (fun _ => 1000) = [] ∧
    ¬ (∃ p ∈ best_fit_decreasing 1 ["h1", "h2"]
      (get_available_resources 1 (fun _ => 0) (fun _ => 1000))
      (get_available_resources 1 (fun _ => 0) (fun _ => 2048))
      [] (fun _ => 0) (fun _ => 0) ["v1", "v2", "v3"] (fun _ => [600])
      (fun _ => 1000), p.1 = "v1") := by
  have hA : get_available_resources 1 (fun _ => 0) (fun _ => 1000) =
      fun _ => (1000 : Int) :=
    funext fun x => by norm_num [get_available_resources, pyInt]
  have hB : get_available_resources 1 (fun _ => 0) (fun _ => 2048) =
      fun _ => (2048 : Int) :=
    funext fun x => by norm_num [get_available_resources, pyInt]
  constructor
  · rw [hA, hB]; decide
  · rw [hA, hB]; decide

/-- C2 (amended) — on the literal scenario-1 inputs the placement is
infeasible and `best_fit_decreasing` returns the empty mapping `{}`: a pair
of 600 MHz VMs does not fit under the 1000 MHz availability of a host, so at
most one VM fits per host and the three VMs cannot all be placed on the two
hosts. -/
theorem bfd_scenario1_empty :
    best_fit_decreasing 1 ["h1", "h2"]
      (get_available_resources 1 (fun _ => 0) (fun _ => 1000))
      (get_available_resources 1 (fun _ => 0) (fun _ => 2048))
      [] (fun _ => 0) (fun _ => 0) ["v1", "v2", "v3"] (fun _ => [600])
      (fun _ => 1000) = [] ∧
    ¬ ((600 : Int) + 600 ≤ 1000) := by
  have hA : get_available_resources 1 (fun _ => 0) (fun _ => 1000) =
      fun _ => (1000 : Int) :=
    funext fun x => by norm_num [get_available_resources, pyInt]
  have hB : get_available_resources 1 (fun _ => 0) (fun _ => 2048) =
      fun _ => (2048 : Int) :=
    funext fun x => by norm_num [get_available_resources, pyInt]
  refine ⟨?_, by norm_num⟩
  rw [hA, hB]; decide

end Terracotta
